import Mathlib

/-!
Verification of the AntiGravt01 map-tile utilities.

The Python sources (`scripts/map_tiler.py`, `scripts/map_enhancer.py`,
`scripts/batch_process.py`) are shallowly embedded below.  An image is a
rectangular buffer of RGB pixels; 8-bit channel values are modelled as `Nat`
(with an explicit `≤ 255` well-formedness condition where it matters).
Floating-point arithmetic in the color-correction routine (`np.mean`, the
`1e-6` epsilon guard, the ratio multiplication) is modelled as exact rational
arithmetic; the `uint8` cast of a nonnegative clipped value is `Nat.floor`.
File I/O is modelled by a filesystem map `Fs := String → Option Img`
(`none` covers both a missing file and one that fails to decode), and the
PIL resampling/sharpening kernels — library code, not part of this
repository — are parameters constrained only by their documented
size contracts.
-/

namespace AntiGrav

/-- An RGB pixel: three 8-bit channels, modelled as naturals. -/
abbrev Rgb : Type := Nat × Nat × Nat

/-- Channel access: index 0 is red, 1 green, 2 blue (`img_array[.., c]`). -/
def chan (p : Rgb) (i : Nat) : Nat :=
  match i with
  | 0 => p.1
  | 1 => p.2.1
  | _ => p.2.2

/-- The background color of a freshly allocated canvas
(`Image.new('RGB', ...)` defaults to black). -/
def rgbBlack : Rgb := (0, 0, 0)

/-- An in-memory RGB image: dimensions plus a pixel map.
Only coordinates `x < width`, `y < height` are meaningful. -/
structure Img where
  width : Nat
  height : Nat
  pixel : Nat → Nat → Rgb

/-- A PIL crop box `(left, top, right, bottom)`. -/
structure Box where
  left : Nat
  top : Nat
  right : Nat
  bottom : Nat

/-- Membership of a point in the half-open rectangle of a `Box`. -/
def inBox (b : Box) (x y : Nat) : Prop :=
  b.left ≤ x ∧ x < b.right ∧ b.top ≤ y ∧ y < b.bottom

instance (b : Box) (x y : Nat) : Decidable (inBox b x y) := by
  unfold inBox; infer_instance

/-- Crop `img.crop(box)`: the sub-image of a box (boxes used here stay in bounds). -/
def crop (img : Img) (b : Box) : Img where
  width := b.right - b.left
  height := b.bottom - b.top
  pixel := fun x y => img.pixel (b.left + x) (b.top + y)

/-! ## `map_tiler.split_image` (`scripts/map_tiler.py`, lines 5-47)

The loop body computes, for grid cell `(r, c)`:
`tile_w = w // cols`, `tile_h = h // rows`, `left = c * tile_w`,
`top = r * tile_h`, `right = left + tile_w`, `bottom = top + tile_h`,
then forces `right = w` when `c == cols - 1` and `bottom = h` when
`r == rows - 1`. -/

/-- The crop box of grid cell `(r, c)` exactly as `split_image` computes it. -/
def tile_box (w h rows cols r c : Nat) : Box :=
  let tile_w := w / cols
  let tile_h := h / rows
  let left := c * tile_w
  let top := r * tile_h
  let right := if c = cols - 1 then w else left + tile_w
  let bottom := if r = rows - 1 then h else top + tile_h
  ⟨left, top, right, bottom⟩

/-- One-dimensional segment start used by `tile_box`: `i * (total / n)`. -/
def segL (n total i : Nat) : Nat := i * (total / n)

/-- One-dimensional segment stop used by `tile_box`: the next segment start,
with the last segment forced to the full extent. -/
def segR (n total i : Nat) : Nat :=
  if i = n - 1 then total else i * (total / n) + total / n

/-- The row-major list of grid coordinates traversed by the nested
`for r in range(rows): for c in range(cols):` loops. -/
def pairList (rows cols : Nat) : List (Nat × Nat) :=
  (List.range rows).flatMap fun r => (List.range cols).map fun c => (r, c)

/-- The row-major list of tile images cropped by `split_image`. -/
def split_tiles (img : Img) (rows cols : Nat) : List Img :=
  (pairList rows cols).map fun rc =>
    crop img (tile_box img.width img.height rows cols rc.1 rc.2)

/-- The name of the tile file written for cell `(r, c)`.  The Python code
derives it from `splitext(basename(image_path))` and `dirname(image_path)`;
that path surgery is abbreviated here to suffixing the image path, which
preserves everything the verified claims depend on. -/
def split_tile_name (image_path : String) (r c : Nat) : String :=
  image_path ++ "_tile_" ++ toString r ++ "_" ++ toString c ++ ".png"

/-- A filesystem: maps a path to the image stored there, `none` when the
file is absent or cannot be decoded. -/
def Fs : Type := String → Option Img

/-- Write one file into a filesystem. -/
def fsWrite (fs : Fs) (path : String) (img : Img) : Fs :=
  fun q => if q = path then some img else fs q

/-- Embedding of `split_image(image_path, rows, cols)`: returns the row-major list of
written tile paths and the filesystem after the writes.  When the source
image is missing or unreadable the function prints a diagnostic and returns
the empty list, leaving the filesystem untouched. -/
def split_image (fs : Fs) (image_path : String) (rows cols : Nat) :
    List String × Fs :=
  match fs image_path with
  | none => ([], fs)
  | some img =>
    let paths := (pairList rows cols).map fun rc =>
      split_tile_name image_path rc.1 rc.2
    let tiles := split_tiles img rows cols
    (paths, (paths.zip tiles).foldl (fun f pt => fsWrite f pt.1 pt.2) fs)

/-! ## `map_tiler.stitch_images` (`scripts/map_tiler.py`, lines 49-80)

`stitch_images` opens the tiles, reads `(tile_w, tile_h)` from the first
one (an `IndexError` on an empty list is caught and turned into `None`),
allocates a `cols*tile_w × rows*tile_h` black RGB canvas and pastes tile
`idx = r*cols + c` at `(c*tile_w, r*tile_h)` whenever `idx < len(images)`.
The embedding takes the already-opened images as input. -/

/-- Paste `canvas.paste(tile, (ox, oy))`: overwrite the tile-sized rectangle at
offset `(ox, oy)`. -/
def paste (canvas tile : Img) (ox oy : Nat) : Img :=
  { canvas with
    pixel := fun x y =>
      if ox ≤ x ∧ x < ox + tile.width ∧ oy ≤ y ∧ y < oy + tile.height then
        tile.pixel (x - ox) (y - oy)
      else canvas.pixel x y }

/-- The body of the stitching loop for grid cell `rc`. -/
def stitchStep (tiles : List Img) (cols tile_w tile_h : Nat)
    (canvas : Img) (rc : Nat × Nat) : Img :=
  match tiles[rc.1 * cols + rc.2]? with
  | some t => paste canvas t (rc.2 * tile_w) (rc.1 * tile_h)
  | none => canvas

/-- Embedding of `stitch_images(tile_paths, output_path, rows, cols)` (the pixel content
it saves; `none` models the `except` branch, reached when the tile list is
empty and `images[0].size` raises). -/
def stitch_images (tiles : List Img) (rows cols : Nat) : Option Img :=
  match tiles with
  | [] => none
  | t0 :: _ =>
    some ((pairList rows cols).foldl
      (stitchStep tiles cols t0.width t0.height)
      ⟨cols * t0.width, rows * t0.height, fun _ _ => rgbBlack⟩)

/-! ## `map_enhancer.enhance_map_resolution` (`scripts/map_enhancer.py`, lines 6-29)

`img.resize((w*k, h*k), Image.LANCZOS)` followed by
`img.filter(ImageFilter.UnsharpMask(radius=1, percent=100, threshold=0))`.
The two PIL kernels are library code outside this repository; they enter the
embedding as parameters `resize` (taking the target size, contracted to
produce exactly that size) and `unsharp` (contracted to preserve the size),
which is all the verified claims use of them. -/

/-- Embedding of `enhance_map_resolution(image_path, scale_factor)`: the pure image
transformation (the existence check and `except` branch live in
`enhance_from_fs` below). -/
def enhance_map_resolution (resize : Img → Nat × Nat → Img)
    (unsharp : Img → Img) (img : Img) (scale_factor : Nat) : Img :=
  let new_width := img.width * scale_factor
  let new_height := img.height * scale_factor
  unsharp (resize img (new_width, new_height))

/-- Calling `enhance_map_resolution` on a path: a missing or unreadable
file yields `None`. -/
def enhance_from_fs (resize : Img → Nat × Nat → Img) (unsharp : Img → Img)
    (fs : Fs) (image_path : String) (scale_factor : Nat) : Option Img :=
  match fs image_path with
  | none => none
  | some img => some (enhance_map_resolution resize unsharp img scale_factor)

/-! ## `map_enhancer.fix_antarctica_color_mismatch` (`scripts/map_enhancer.py`, lines 31-78)

`antarctica_start_row = int(height * 0.85)` (the float product truncates to
`height * 85 / 100` for every realistic height); left region
`[start:, :width//2]`, right region `[start:, width//2:]`; per-channel means;
`ratio = left_mean / (right_mean + 1e-6)`; the right region is multiplied by
the ratio, clipped to `[0, 255]` and cast back to `uint8` (truncation).
Float arithmetic is modelled exactly in `ℚ`. -/

/-- The row `int(height * 0.85)` where the Antarctica band begins. -/
def antarctica_start_row (height : Nat) : Nat := height * 85 / 100

/-- The channel-`i` values of the rectangle `[x0, x1) × [y0, y1)`, in the
row-major order `np` enumerates them. -/
def regionVals (img : Img) (i x0 x1 y0 y1 : Nat) : List Nat :=
  (List.range (y1 - y0)).flatMap fun dy =>
    (List.range (x1 - x0)).map fun dx => chan (img.pixel (x0 + dx) (y0 + dy)) i

/-- Mean (`np.mean`) of one channel over a rectangle: sum divided by pixel count. -/
def regionMean (img : Img) (i x0 x1 y0 y1 : Nat) : ℚ :=
  ((regionVals img i x0 x1 y0 y1).sum : ℚ) /
    ((regionVals img i x0 x1 y0 y1).length : ℚ)

/-- The value `left_avg_color[i]`: mean of channel `i` over the bottom-left region. -/
def left_avg_color (img : Img) (i : Nat) : ℚ :=
  regionMean img i 0 (img.width / 2) (antarctica_start_row img.height) img.height

/-- The value `right_avg_color[i]`: mean of channel `i` over the bottom-right region. -/
def right_avg_color (img : Img) (i : Nat) : ℚ :=
  regionMean img i (img.width / 2) img.width (antarctica_start_row img.height)
    img.height

/-- The `1e-6` guard added to the denominator. -/
def epsGuard : ℚ := 1 / 1000000

/-- The ratio `color_ratio[i] = left_avg_color[i] / (right_avg_color[i] + 1e-6)`. -/
def color_scale (img : Img) (i : Nat) : ℚ :=
  left_avg_color img i / (right_avg_color img i + epsGuard)

/-- Clipping `np.clip(v, 0, 255)` followed by the `uint8` cast (truncation; the
clipped value is nonnegative, so truncation is the floor). -/
def clip_to_byte (q : ℚ) : Nat := ⌊min (max q 0) 255⌋₊

/-- Embedding of `fix_antarctica_color_mismatch(image_path, output_path)`: the corrected
image it saves.  The input is already RGB (`convert('RGB')` is the identity
on RGB data). -/
def fix_antarctica_color_mismatch (img : Img) : Img :=
  { img with
    pixel := fun x y =>
      if antarctica_start_row img.height ≤ y ∧ y < img.height ∧
          img.width / 2 ≤ x ∧ x < img.width then
        (clip_to_byte ((chan (img.pixel x y) 0 : ℚ) * color_scale img 0),
         clip_to_byte ((chan (img.pixel x y) 1 : ℚ) * color_scale img 1),
         clip_to_byte ((chan (img.pixel x y) 2 : ℚ) * color_scale img 2))
      else img.pixel x y }

/-! ## `batch_process.batch_enhance_tiles` (`scripts/batch_process.py`, lines 31-48)

For every cell `(r, c)` in row-major order it looks for
`{base_path}/{pref}_tile_{r}_{c}.png`; a missing file is skipped with a
warning, an existing one is enhanced and saved as
`{output_dir}/{pref}_tile_{r}_{c}_enhanced.png`, whose path is appended to
the result list. -/

/-- The expected tile filename `{pref}_tile_{r}_{c}.png`. -/
def tile_name (pref : String) (r c : Nat) : String :=
  pref ++ "_tile_" ++ toString r ++ "_" ++ toString c ++ ".png"

/-- The enhanced-tile filename `{pref}_tile_{r}_{c}_enhanced.png`. -/
def enhanced_tile_name (pref : String) (r c : Nat) : String :=
  pref ++ "_tile_" ++ toString r ++ "_" ++ toString c ++ "_enhanced.png"

/-- Model of `os.path.join`. -/
def path_join (d f : String) : String := d ++ "/" ++ f

/-- Embedding of `batch_enhance_tiles(base_path, output_dir, prefix, rows, cols,
scale_factor)`: the list of enhanced-tile paths it produces. -/
def batch_enhance_tiles (resize : Img → Nat × Nat → Img) (unsharp : Img → Img)
    (fs : Fs) (base_path output_dir pref : String)
    (rows cols scale_factor : Nat) : List String :=
  (pairList rows cols).foldl
    (fun acc rc =>
      let tile_path := path_join base_path (tile_name pref rc.1 rc.2)
      if (fs tile_path).isSome then
        match enhance_from_fs resize unsharp fs tile_path scale_factor with
        | some _ =>
          acc ++ [path_join output_dir (enhanced_tile_name pref rc.1 rc.2)]
        | none => acc
      else acc)
    []

/-- The pixel a finished canvas shows at `(x, y)` when tiles of uniform size
`tw × th` have been pasted on the `cols`-wide grid: the pixel of tile
`(y / th) * cols + x / tw` when that index is in range, else `deflt`. -/
def cellPix (tiles : List Img) (cols tw th : Nat) (deflt : Rgb) (x y : Nat) : Rgb :=
  match tiles[(y / th) * cols + x / tw]? with
  | some t => t.pixel (x % tw) (y % th)
  | none => deflt

/-! ## Concrete instances used to witness or refute the claims -/

/-- A 4×2 image whose bottom row (the Antarctica band for height 2) has
left half `200, 200` and right half `10, 240` on every channel: the ratio
`200 / (125 + 1e-6)` pushes the `240` pixel to `384`, which clips to `255`. -/
def imgClip : Img :=
  ⟨4, 2, fun x y =>
    if y = 0 then (0, 0, 0)
    else if x ≤ 1 then (200, 200, 200)
    else if x = 2 then (10, 10, 10)
    else (240, 240, 240)⟩

/-- A 4×2 image whose bottom row is `100` everywhere: the correction ratio
is just below 1, so no value clips. -/
def imgFlat : Img :=
  ⟨4, 2, fun _ y => if y = 0 then (0, 0, 0) else (100, 100, 100)⟩

/-- A 2×2 image with four distinct pixels, used for the split/stitch
round-trip witness. -/
def imgFour : Img :=
  ⟨2, 2, fun x y => (x, y, 10 * x + y)⟩

/-- A single 1×1 tile, used to witness stitching with fewer tiles than
grid cells. -/
def tileOne : Img := ⟨1, 1, fun _ _ => (7, 8, 9)⟩

/-- A size-faithful stand-in for PIL's Lanczos resampler: it satisfies the
resampler's size contract, which is all the dimension claims depend on. -/
def resampleModel (im : Img) (wh : Nat × Nat) : Img :=
  ⟨wh.1, wh.2, fun x y => im.pixel x y⟩

/-- A size-preserving stand-in for PIL's unsharp-mask filter. -/
def sharpenModel (im : Img) : Img := im

/-- The empty filesystem. -/
def fsEmpty : Fs := fun _ => none

/-- A filesystem holding exactly one decodable image file. -/
def fsOne (path : String) (img : Img) : Fs :=
  fun q => if q = path then some img else none

/-! ## Grid geometry: the one-dimensional segment decomposition -/

theorem tile_box_eq (w h rows cols r c : Nat) :
    tile_box w h rows cols r c =
      ⟨segL cols w c, segL rows h r, segR cols w c, segR rows h r⟩ := rfl

theorem inBox_tile_box (w h rows cols r c x y : Nat) :
    inBox (tile_box w h rows cols r c) x y ↔
      (segL cols w c ≤ x ∧ x < segR cols w c) ∧
        (segL rows h r ≤ y ∧ y < segR rows h r) := by
  rw [tile_box_eq]
  unfold inBox
  constructor
  · rintro ⟨h1, h2, h3, h4⟩; exact ⟨⟨h1, h2⟩, h3, h4⟩
  · rintro ⟨⟨h1, h2⟩, h3, h4⟩; exact ⟨h1, h2, h3, h4⟩

theorem seg_size (n total i : Nat) (hn : 1 ≤ n) (_hi : i < n) :
    segR n total i - segL n total i =
      if i = n - 1 then total / n + total % n else total / n := by
  unfold segL segR
  by_cases h : i = n - 1
  · rw [if_pos h, if_pos h, h]
    have h1 : n * (total / n) + total % n = total := Nat.div_add_mod total n
    have h2 : (n - 1) * (total / n) = n * (total / n) - total / n := by
      rw [Nat.sub_mul, Nat.one_mul]
    have h3 : total / n ≤ n * (total / n) := Nat.le_mul_of_pos_left _ hn
    rw [h2]
    generalize hA : n * (total / n) = A at h1 h3 ⊢
    generalize hB : total % n = B at h1 ⊢
    generalize hq : total / n = q at h3 ⊢
    omega
  · rw [if_neg h, if_neg h, Nat.add_sub_cancel_left]

theorem seg_exists_unique (n total x : Nat) (hn : 1 ≤ n) (hx : x < total) :
    ∃! i, i < n ∧ segL n total i ≤ x ∧ x < segR n total i := by
  unfold segL segR
  have hn1 : n - 1 < n := Nat.sub_lt hn Nat.one_pos
  by_cases hq0 : total / n = 0
  · refine ⟨n - 1, ⟨hn1, by simp [hq0], by simp [hx]⟩, ?_⟩
    intro j ⟨hj, _, hjr⟩
    by_contra hne
    rw [if_neg hne, hq0, Nat.mul_zero, Nat.add_zero] at hjr
    exact absurd hjr (Nat.not_lt_zero x)
  · have hqpos : 0 < total / n := Nat.pos_of_ne_zero hq0
    by_cases hbig : n - 1 ≤ x / (total / n)
    · refine ⟨n - 1, ⟨hn1, (Nat.le_div_iff_mul_le hqpos).mp hbig, by simp [hx]⟩, ?_⟩
      intro j ⟨hj, _, hjr⟩
      by_contra hne
      rw [if_neg hne, ← Nat.succ_mul] at hjr
      have h2 : x / (total / n) ≤ j :=
        Nat.lt_succ_iff.mp ((Nat.div_lt_iff_lt_mul hqpos).mpr hjr)
      have h3 : n - 1 ≤ j := Nat.le_trans hbig h2
      exact hne (Nat.le_antisymm (Nat.le_pred_of_lt hj) h3)
    · push_neg at hbig
      have hne : x / (total / n) ≠ n - 1 := Nat.ne_of_lt hbig
      refine ⟨x / (total / n),
        ⟨Nat.lt_of_lt_of_le hbig (Nat.sub_le n 1), Nat.div_mul_le_self x _, ?_⟩, ?_⟩
      · rw [if_neg hne, ← Nat.succ_mul]
        exact (Nat.div_lt_iff_lt_mul hqpos).mp (Nat.lt_succ_self _)
      · intro j ⟨hj, hjl, hjr⟩
        by_cases hjlast : j = n - 1
        · exfalso
          subst hjlast
          exact absurd ((Nat.le_div_iff_mul_le hqpos).mpr hjl) (not_le_of_lt hbig)
        · rw [if_neg hjlast, ← Nat.succ_mul] at hjr
          have h2 : x / (total / n) < j + 1 := (Nat.div_lt_iff_lt_mul hqpos).mpr hjr
          have h3 : j ≤ x / (total / n) := (Nat.le_div_iff_mul_le hqpos).mpr hjl
          exact Nat.le_antisymm h3 (Nat.lt_succ_iff.mp h2)

/-- C1: for every image size `W×H` and grid `rows×cols` with `rows ≥ 1` and
`cols ≥ 1`, the crop rectangles computed by `split_image` exactly partition
`[0,W)×[0,H)` — every point lies in exactly one tile box — and every tile
not in the last column has width `W / cols` while last-column tiles have
width `W / cols + W % cols`, and likewise for rows and heights (so a
101×100 image split 2×2 has column-0 tiles 50 wide and column-1 tiles 51
wide). -/
theorem split_image_partitions (w h rows cols : Nat)
    (hr : 1 ≤ rows) (hc : 1 ≤ cols) :
    (∀ x, x < w → ∀ y, y < h →
      ∃! rc : Nat × Nat, (rc.1 < rows ∧ rc.2 < cols) ∧
        inBox (tile_box w h rows cols rc.1 rc.2) x y) ∧
    (∀ r, r < rows → ∀ c, c < cols →
      ((tile_box w h rows cols r c).right - (tile_box w h rows cols r c).left =
        if c = cols - 1 then w / cols + w % cols else w / cols) ∧
      ((tile_box w h rows cols r c).bottom - (tile_box w h rows cols r c).top =
        if r = rows - 1 then h / rows + h % rows else h / rows)) := by
  constructor
  · intro x hx y hy
    obtain ⟨c0, ⟨hc0, hcl, hcr⟩, hcu⟩ := seg_exists_unique cols w x hc hx
    obtain ⟨r0, ⟨hr0, hrl, hrr⟩, hru⟩ := seg_exists_unique rows h y hr hy
    refine ⟨(r0, c0), ⟨⟨hr0, hc0⟩, ?_⟩, ?_⟩
    · exact (inBox_tile_box w h rows cols r0 c0 x y).mpr ⟨⟨hcl, hcr⟩, hrl, hrr⟩
    · rintro ⟨r', c'⟩ ⟨⟨hr', hc'⟩, hbox⟩
      obtain ⟨⟨h1, h2⟩, h3, h4⟩ := (inBox_tile_box w h rows cols r' c' x y).mp hbox
      have ec : c' = c0 := hcu c' ⟨hc', h1, h2⟩
      have er : r' = r0 := hru r' ⟨hr', h3, h4⟩
      simp [ec, er]
  · intro r hrlt c hclt
    rw [tile_box_eq]
    exact ⟨seg_size cols w c hc hclt, seg_size rows h r hr hrlt⟩

/-- C1 witness: the 101×100 image split 2×2 — both hypotheses hold and the
partition/size conclusion follows, giving 50- and 51-wide columns. -/
theorem split_image_partitions_witness :
    (1 ≤ 2 ∧ 1 ≤ 2) ∧
    ((∀ x, x < 101 → ∀ y, y < 100 →
      ∃! rc : Nat × Nat, (rc.1 < 2 ∧ rc.2 < 2) ∧
        inBox (tile_box 101 100 2 2 rc.1 rc.2) x y) ∧
    (∀ r, r < 2 → ∀ c, c < 2 →
      ((tile_box 101 100 2 2 r c).right - (tile_box 101 100 2 2 r c).left =
        if c = 2 - 1 then 101 / 2 + 101 % 2 else 101 / 2) ∧
      ((tile_box 101 100 2 2 r c).bottom - (tile_box 101 100 2 2 r c).top =
        if r = 2 - 1 then 100 / 2 + 100 % 2 else 100 / 2))) :=
  ⟨⟨by decide, by decide⟩,
    split_image_partitions 101 100 2 2 (by decide) (by decide)⟩

/-! ## Row-major grid traversal -/

theorem pairList_mem (rows cols : Nat) (p : Nat × Nat) :
    p ∈ pairList rows cols ↔ p.1 < rows ∧ p.2 < cols := by
  unfold pairList
  simp only [List.mem_flatMap, List.mem_map, List.mem_range]
  constructor
  · rintro ⟨r, hr, c, hc, rfl⟩
    exact ⟨hr, hc⟩
  · rintro ⟨h1, h2⟩
    exact ⟨p.1, h1, p.2, h2, rfl⟩

theorem pairList_succ (rows cols : Nat) :
    pairList (rows + 1) cols =
      pairList rows cols ++ (List.range cols).map (fun c => (rows, c)) := by
  unfold pairList
  rw [List.range_succ, List.flatMap_append]
  simp

theorem pairList_length (rows cols : Nat) :
    (pairList rows cols).length = rows * cols := by
  induction rows with
  | zero => rw [Nat.zero_mul]; rfl
  | succ n ih =>
    rw [pairList_succ, List.length_append, ih, List.length_map,
      List.length_range, Nat.succ_mul]

theorem cell_index_lt {r c rows cols : Nat} (hr : r < rows) (hc : c < cols) :
    r * cols + c < rows * cols := by
  have h1 : r * cols + c < (r + 1) * cols := by
    rw [Nat.succ_mul]
    exact Nat.add_lt_add_left hc _
  exact Nat.lt_of_lt_of_le h1 (Nat.mul_le_mul_right cols hr)

theorem pairList_getElem (rows cols r c : Nat) (hr : r < rows) (hc : c < cols) :
    (pairList rows cols)[r * cols + c]? = some (r, c) := by
  induction rows with
  | zero => exact absurd hr (Nat.not_lt_zero r)
  | succ n ih =>
    rw [pairList_succ, List.getElem?_append]
    by_cases h : r < n
    · rw [if_pos, ih h]
      rw [pairList_length]
      exact cell_index_lt h hc
    · have hrn : r = n := Nat.le_antisymm (Nat.lt_succ_iff.mp hr) (Nat.le_of_not_lt h)
      subst hrn
      rw [if_neg, pairList_length, Nat.add_sub_cancel_left, List.getElem?_map,
        List.getElem?_range hc, Option.map_some']
      rw [pairList_length]
      exact Nat.not_lt_of_le (Nat.le_add_right _ c)

/-! ## Stitching: what the pasted canvas shows at each point -/

theorem lt_div_succ_mul (x n : Nat) (hn : 0 < n) : x < (x / n + 1) * n :=
  (Nat.div_lt_iff_lt_mul hn).mp (Nat.lt_succ_self _)

theorem sub_div_mul_eq_mod (x n : Nat) : x - x / n * n = x % n := by
  have h := Nat.div_add_mod x n
  rw [Nat.mul_comm] at h
  generalize hA : x / n * n = A at h ⊢
  generalize hB : x % n = B at h ⊢
  omega

theorem stitchStep_pixel (tiles : List Img) (cols tw th : Nat)
    (htw : 0 < tw) (hth : 0 < th)
    (hsz : ∀ t ∈ tiles, t.width = tw ∧ t.height = th)
    (x y : Nat) (canv : Img) (p : Nat × Nat) :
    (stitchStep tiles cols tw th canv p).pixel x y =
      if p = (y / th, x / tw) then
        cellPix tiles cols tw th (canv.pixel x y) x y
      else canv.pixel x y := by
  obtain ⟨p1, p2⟩ := p
  unfold stitchStep cellPix
  cases hidx : tiles[p1 * cols + p2]? with
  | none =>
    by_cases hp : (p1, p2) = (y / th, x / tw)
    · obtain ⟨e1, e2⟩ := Prod.mk.injEq .. ▸ hp
      rw [if_pos hp]
      subst e1; subst e2
      rw [hidx]
    · rw [if_neg hp]
  | some t =>
    obtain ⟨htww, hthh⟩ := hsz t (List.getElem?_mem hidx)
    unfold paste
    simp only
    by_cases hp : (p1, p2) = (y / th, x / tw)
    · obtain ⟨e1, e2⟩ := Prod.mk.injEq .. ▸ hp
      subst e1; subst e2
      rw [if_pos hp, hidx]
      rw [if_pos, sub_div_mul_eq_mod, sub_div_mul_eq_mod]
      refine ⟨Nat.div_mul_le_self x tw, ?_, Nat.div_mul_le_self y th, ?_⟩
      · rw [htww, ← Nat.succ_mul]
        exact lt_div_succ_mul x tw htw
      · rw [hthh, ← Nat.succ_mul]
        exact lt_div_succ_mul y th hth
    · rw [if_neg hp, if_neg]
      rintro ⟨h1, h2, h3, h4⟩
      rw [htww] at h2
      rw [hthh] at h4
      have e2 : x / tw = p2 :=
        Nat.div_eq_of_lt_le h1 (by rw [Nat.succ_mul]; exact h2)
      have e1 : y / th = p1 :=
        Nat.div_eq_of_lt_le h3 (by rw [Nat.succ_mul]; exact h4)
      exact hp (by rw [e1, e2])

theorem stitch_foldl_pixel (tiles : List Img) (cols tw th : Nat)
    (htw : 0 < tw) (hth : 0 < th)
    (hsz : ∀ t ∈ tiles, t.width = tw ∧ t.height = th)
    (x y : Nat) (L : List (Nat × Nat)) (canv : Img) :
    (L.foldl (stitchStep tiles cols tw th) canv).pixel x y =
      if (y / th, x / tw) ∈ L then
        cellPix tiles cols tw th (canv.pixel x y) x y
      else canv.pixel x y := by
  induction L generalizing canv with
  | nil => rw [List.foldl_nil, if_neg (List.not_mem_nil _)]
  | cons p L ih =>
    rw [List.foldl_cons, ih]
    rw [stitchStep_pixel tiles cols tw th htw hth hsz x y canv p]
    by_cases hmem : (y / th, x / tw) ∈ L
    · rw [if_pos hmem, if_pos (List.mem_cons_of_mem p hmem)]
      by_cases hp : p = (y / th, x / tw)
      · rw [if_pos hp]
        unfold cellPix
        cases hidx : tiles[(y / th) * cols + x / tw]? <;> rfl
      · rw [if_neg hp]
    · rw [if_neg hmem]
      by_cases hp : p = (y / th, x / tw)
      · rw [if_pos hp, if_pos (hp ▸ List.mem_cons_self p L)]
      · rw [if_neg hp, if_neg]
        rw [List.mem_cons]
        rintro (h | h)
        · exact hp h.symm
        · exact hmem h

theorem stitchStep_width (tiles : List Img) (cols tw th : Nat)
    (canv : Img) (p : Nat × Nat) :
    (stitchStep tiles cols tw th canv p).width = canv.width ∧
      (stitchStep tiles cols tw th canv p).height = canv.height := by
  unfold stitchStep
  cases tiles[p.1 * cols + p.2]? <;> exact ⟨rfl, rfl⟩

theorem foldl_stitchStep_width (tiles : List Img) (cols tw th : Nat)
    (L : List (Nat × Nat)) (canv : Img) :
    (L.foldl (stitchStep tiles cols tw th) canv).width = canv.width ∧
      (L.foldl (stitchStep tiles cols tw th) canv).height = canv.height := by
  induction L generalizing canv with
  | nil => exact ⟨rfl, rfl⟩
  | cons p L ih =>
    rw [List.foldl_cons]
    obtain ⟨h1, h2⟩ := ih (stitchStep tiles cols tw th canv p)
    obtain ⟨h3, h4⟩ := stitchStep_width tiles cols tw th canv p
    exact ⟨h1.trans h3, h2.trans h4⟩

theorem foldl_congr_mem {α β : Type} (l : List α) (f g : β → α → β) (b : β)
    (h : ∀ x ∈ l, ∀ acc, f acc x = g acc x) : l.foldl f b = l.foldl g b := by
  induction l generalizing b with
  | nil => rfl
  | cons a l ih =>
    rw [List.foldl_cons, List.foldl_cons, h a (List.mem_cons_self a l)]
    exact ih _ fun x hx acc => h x (List.mem_cons_of_mem a hx) acc

/-- C6 (amended): for every nonempty list of tiles that all share the
dimensions `tw × th` of the first tile, `stitch_images` produces an output
canvas of size `cols*tw × rows*th` on which the cell with row-major index
`idx = r*cols + c` shows `tiles[idx]` pasted at offset `(c*tw, r*th)` when
`idx < len tiles` and the black background otherwise, and any tiles beyond
the first `rows*cols` are ignored.  (The original claim quantified over
every list; the empty list refutes it, and differently-sized tiles can
bleed across cell boundaries, so both restrictions are required.) -/
theorem stitch_images_spec (tiles : List Img) (rows cols tw th : Nat)
    (hr : 1 ≤ rows) (hc : 1 ≤ cols) (hne : tiles ≠ [])
    (hsz : ∀ t ∈ tiles, t.width = tw ∧ t.height = th) :
    ∃ out, stitch_images tiles rows cols = some out ∧
      out.width = cols * tw ∧ out.height = rows * th ∧
      (∀ x y, x < cols * tw → y < rows * th →
        out.pixel x y = cellPix tiles cols tw th rgbBlack x y) ∧
      stitch_images tiles rows cols =
        stitch_images (tiles.take (rows * cols)) rows cols := by
  obtain ⟨t0, rest, rfl⟩ := List.exists_cons_of_ne_nil hne
  obtain ⟨htw0, hth0⟩ := hsz t0 (List.mem_cons_self t0 rest)
  refine ⟨_, rfl, ?_, ?_, ?_, ?_⟩
  · rw [(foldl_stitchStep_width _ _ _ _ _ _).1, htw0]
  · rw [(foldl_stitchStep_width _ _ _ _ _ _).2, hth0]
  · intro x y hx hy
    have htw : 0 < tw := by
      rcases Nat.eq_zero_or_pos tw with h | h
      · subst h; rw [Nat.mul_zero] at hx; exact absurd hx (Nat.not_lt_zero x)
      · exact h
    have hth : 0 < th := by
      rcases Nat.eq_zero_or_pos th with h | h
      · subst h; rw [Nat.mul_zero] at hy; exact absurd hy (Nat.not_lt_zero y)
      · exact h
    show (List.foldl (stitchStep (t0 :: rest) cols t0.width t0.height)
      ⟨cols * t0.width, rows * t0.height, fun _ _ => rgbBlack⟩
      (pairList rows cols)).pixel x y = _
    rw [htw0, hth0]
    rw [stitch_foldl_pixel (t0 :: rest) cols tw th htw hth hsz x y]
    rw [if_pos]
    rw [pairList_mem]
    exact ⟨(Nat.div_lt_iff_lt_mul hth).mpr hy, (Nat.div_lt_iff_lt_mul htw).mpr hx⟩
  · obtain ⟨k, hk⟩ : ∃ k, rows * cols = k + 1 :=
      ⟨rows * cols - 1, (Nat.succ_pred_eq_of_pos
        (Nat.mul_pos hr hc)).symm⟩
    have htake : (t0 :: rest).take (rows * cols) = t0 :: rest.take k := by
      rw [hk, List.take_succ_cons]
    rw [htake]
    show some _ = some _
    congr 1
    apply foldl_congr_mem
    intro rc hrc acc
    obtain ⟨h1, h2⟩ := (pairList_mem rows cols rc).mp hrc
    unfold stitchStep
    rw [← htake, List.getElem?_take, if_pos (cell_index_lt h1 h2)]

theorem split_tiles_size (img : Img) (rows cols : Nat)
    (hr : 1 ≤ rows) (hc : 1 ≤ cols)
    (hW : img.width % cols = 0) (hH : img.height % rows = 0) :
    ∀ t ∈ split_tiles img rows cols,
      t.width = img.width / cols ∧ t.height = img.height / rows := by
  intro t ht
  rw [split_tiles] at ht
  obtain ⟨rc, hrc, rfl⟩ := List.mem_map.mp ht
  obtain ⟨h1, h2⟩ := (pairList_mem rows cols rc).mp hrc
  constructor
  · show (tile_box img.width img.height rows cols rc.1 rc.2).right -
      (tile_box img.width img.height rows cols rc.1 rc.2).left = _
    rw [tile_box_eq]
    rw [show (Box.mk (segL cols img.width rc.2) (segL rows img.height rc.1)
      (segR cols img.width rc.2) (segR rows img.height rc.1)).right = segR cols img.width rc.2 from rfl]
    rw [show (Box.mk (segL cols img.width rc.2) (segL rows img.height rc.1)
      (segR cols img.width rc.2) (segR rows img.height rc.1)).left = segL cols img.width rc.2 from rfl]
    rw [seg_size cols img.width rc.2 hc h2, hW]
    split <;> rfl
  · show (tile_box img.width img.height rows cols rc.1 rc.2).bottom -
      (tile_box img.width img.height rows cols rc.1 rc.2).top = _
    rw [tile_box_eq]
    rw [show (Box.mk (segL cols img.width rc.2) (segL rows img.height rc.1)
      (segR cols img.width rc.2) (segR rows img.height rc.1)).bottom = segR rows img.height rc.1 from rfl]
    rw [show (Box.mk (segL cols img.width rc.2) (segL rows img.height rc.1)
      (segR cols img.width rc.2) (segR rows img.height rc.1)).top = segL rows img.height rc.1 from rfl]
    rw [seg_size rows img.height rc.1 hr h1, hH]
    split <;> rfl

/-- C2: when `W % cols = 0` and `H % rows = 0`, stitching the row-major
tiles produced by splitting an image with the same grid yields an image of
the original size whose every pixel equals the original, channel for
channel. -/
theorem split_stitch_roundtrip (img : Img) (rows cols : Nat)
    (hr : 1 ≤ rows) (hc : 1 ≤ cols)
    (hW : img.width % cols = 0) (hH : img.height % rows = 0) :
    ∃ out, stitch_images (split_tiles img rows cols) rows cols = some out ∧
      out.width = img.width ∧ out.height = img.height ∧
      ∀ x y, x < img.width → y < img.height → out.pixel x y = img.pixel x y := by
  have hlen : (split_tiles img rows cols).length = rows * cols := by
    rw [split_tiles, List.length_map, pairList_length]
  have hne : split_tiles img rows cols ≠ [] := by
    apply List.ne_nil_of_length_pos
    rw [hlen]
    exact Nat.mul_pos hr hc
  have hcw : cols * (img.width / cols) = img.width :=
    Nat.mul_div_cancel' (Nat.dvd_of_mod_eq_zero hW)
  have hrh : rows * (img.height / rows) = img.height :=
    Nat.mul_div_cancel' (Nat.dvd_of_mod_eq_zero hH)
  obtain ⟨out, hout, hw', hh', hpix, _⟩ :=
    stitch_images_spec (split_tiles img rows cols) rows cols
      (img.width / cols) (img.height / rows) hr hc hne
      (split_tiles_size img rows cols hr hc hW hH)
  refine ⟨out, hout, by rw [hw', hcw], by rw [hh', hrh], ?_⟩
  intro x y hx hy
  have hxw : x < cols * (img.width / cols) := by rw [hcw]; exact hx
  have hyh : y < rows * (img.height / rows) := by rw [hrh]; exact hy
  have htw : 0 < img.width / cols := by
    rcases Nat.eq_zero_or_pos (img.width / cols) with h | h
    · rw [h, Nat.mul_zero] at hxw; exact absurd hxw (Nat.not_lt_zero x)
    · exact h
  have hth : 0 < img.height / rows := by
    rcases Nat.eq_zero_or_pos (img.height / rows) with h | h
    · rw [h, Nat.mul_zero] at hyh; exact absurd hyh (Nat.not_lt_zero y)
    · exact h
  rw [hpix x y hxw hyh]
  unfold cellPix
  have hxc : x / (img.width / cols) < cols := (Nat.div_lt_iff_lt_mul htw).mpr hxw
  have hyr : y / (img.height / rows) < rows := (Nat.div_lt_iff_lt_mul hth).mpr hyh
  rw [split_tiles, List.getElem?_map, pairList_getElem rows cols _ _ hyr hxc,
    Option.map_some']
  show (crop img (tile_box img.width img.height rows cols
    (y / (img.height / rows)) (x / (img.width / cols)))).pixel
      (x % (img.width / cols)) (y % (img.height / rows)) = img.pixel x y
  rw [tile_box_eq]
  show img.pixel (segL cols img.width (x / (img.width / cols)) + x % (img.width / cols))
    (segL rows img.height (y / (img.height / rows)) + y % (img.height / rows)) = _
  unfold segL
  congr 1
  · rw [Nat.mul_comm, Nat.div_add_mod]
  · rw [Nat.mul_comm, Nat.div_add_mod]

/-- C2 witness: the 2×2 four-pixel image split and stitched on a 2×2 grid
reproduces itself exactly. -/
theorem split_stitch_roundtrip_witness :
    (1 ≤ 2 ∧ 2 % 2 = 0) ∧
    (∃ out, stitch_images (split_tiles imgFour 2 2) 2 2 = some out ∧
      out.width = imgFour.width ∧ out.height = imgFour.height ∧
      ∀ x y, x < imgFour.width → y < imgFour.height →
        out.pixel x y = imgFour.pixel x y) :=
  ⟨⟨by decide, by decide⟩,
    split_stitch_roundtrip imgFour 2 2 (by decide) (by decide)
      (by decide) (by decide)⟩

/-- C6 witness: a single 1×1 tile on a 1×2 grid — fewer tiles than cells;
stitching succeeds, the missing cell stays black, and the extra-tile
truncation is the identity. -/
theorem stitch_images_spec_witness :
    (1 ≤ 1 ∧ 1 ≤ 2 ∧ [tileOne] ≠ [] ∧
      ∀ t ∈ [tileOne], t.width = 1 ∧ t.height = 1) ∧
    (∃ out, stitch_images [tileOne] 1 2 = some out ∧
      out.width = 2 * 1 ∧ out.height = 1 * 1 ∧
      (∀ x y, x < 2 * 1 → y < 1 * 1 →
        out.pixel x y = cellPix [tileOne] 2 1 1 rgbBlack x y) ∧
      stitch_images [tileOne] 1 2 =
        stitch_images ([tileOne].take (1 * 2)) 1 2) :=
  ⟨⟨by decide, by decide, by simp, by
      intro t ht
      rw [List.mem_singleton] at ht
      subst ht
      exact ⟨rfl, rfl⟩⟩,
    stitch_images_spec [tileOne] 1 2 1 1 (by decide) (by decide) (by simp)
      (by
        intro t ht
        rw [List.mem_singleton] at ht
        subst ht
        exact ⟨rfl, rfl⟩)⟩

/-- C6 counterexample: the claim as stated covers every tile list, but for
the empty list (which has fewer tiles than the 2×2 grid needs)
`stitch_images` produces no output at all — `images[0].size` raises and the
handler returns `None`. -/
theorem stitch_images_empty_cex :
    List.length ([] : List Img) < 2 * 2 ∧ stitch_images [] 2 2 = none :=
  ⟨by decide, rfl⟩

/-- C10: for the empty tile list `stitch_images` returns `None` for every
grid: the read of the first tile's size fails before any canvas exists, so
the blank-cell promise does not extend to zero tiles. -/
theorem stitch_images_nil (rows cols : Nat) :
    stitch_images [] rows cols = none := rfl

/-! ## The color corrector: frame and range properties -/

/-- C5: `fix_antarctica_color_mismatch` leaves every pixel outside the
bottom-right correction region unchanged — all rows above
`int(height*0.85)`, and within the bottom band all columns left of
`width // 2` — and preserves the image dimensions. -/
theorem fix_antarctica_frame (img : Img) (x y : Nat)
    (_hx : x < img.width) (_hy : y < img.height)
    (h : y < antarctica_start_row img.height ∨ x < img.width / 2) :
    (fix_antarctica_color_mismatch img).pixel x y = img.pixel x y ∧
    (fix_antarctica_color_mismatch img).width = img.width ∧
    (fix_antarctica_color_mismatch img).height = img.height := by
  refine ⟨?_, rfl, rfl⟩
  simp only [fix_antarctica_color_mismatch]
  rw [if_neg]
  rintro ⟨h1, _, h3, _⟩
  rcases h with hcase | hcase
  · exact absurd h1 (Nat.not_le_of_lt hcase)
  · exact absurd h3 (Nat.not_le_of_lt hcase)

/-- C5 witness: the top-left pixel of the clipping example image is above
the Antarctica band and stays untouched. -/
theorem fix_antarctica_frame_witness :
    (0 < imgClip.width ∧ 0 < imgClip.height ∧
      0 < antarctica_start_row imgClip.height) ∧
    ((fix_antarctica_color_mismatch imgClip).pixel 0 0 = imgClip.pixel 0 0 ∧
      (fix_antarctica_color_mismatch imgClip).width = imgClip.width ∧
      (fix_antarctica_color_mismatch imgClip).height = imgClip.height) :=
  ⟨⟨by decide, by decide, by decide⟩,
    fix_antarctica_frame imgClip 0 0 (by decide) (by decide)
      (Or.inl (by decide))⟩

theorem clip_to_byte_le (q : ℚ) : clip_to_byte q ≤ 255 := by
  unfold clip_to_byte
  have h1 : min (max q 0) 255 ≤ ((255 : Nat) : ℚ) := by
    push_cast
    exact min_le_right _ _
  exact Nat.floor_le_of_le h1

/-- C4: every channel of every pixel of the corrected image stays in
`[0, 255]` (channels are naturals, so `0 ≤` holds by type): inside the
corrected region the value is clipped before the `uint8` cast, and outside
it the original 8-bit value is kept. -/
theorem fix_antarctica_in_range (img : Img)
    (hin : ∀ x, x < img.width → ∀ y, y < img.height → ∀ i, i < 3 →
      chan (img.pixel x y) i ≤ 255) :
    ∀ x, x < img.width → ∀ y, y < img.height → ∀ i, i < 3 →
      chan ((fix_antarctica_color_mismatch img).pixel x y) i ≤ 255 := by
  intro x hx y hy i hi
  simp only [fix_antarctica_color_mismatch]
  by_cases h : antarctica_start_row img.height ≤ y ∧ y < img.height ∧
      img.width / 2 ≤ x ∧ x < img.width
  · rw [if_pos h]
    match i, hi with
    | 0, _ => exact clip_to_byte_le _
    | 1, _ => exact clip_to_byte_le _
    | 2, _ => exact clip_to_byte_le _
  · rw [if_neg h]
    exact hin x hx y hy i hi

/-- C4 witness: the clipping example image — the ratio would push a value
to 384, yet every output channel is still at most 255. -/
theorem fix_antarctica_in_range_witness :
    (∀ x, x < imgClip.width → ∀ y, y < imgClip.height → ∀ i, i < 3 →
      chan (imgClip.pixel x y) i ≤ 255) ∧
    (∀ x, x < imgClip.width → ∀ y, y < imgClip.height → ∀ i, i < 3 →
      chan ((fix_antarctica_color_mismatch imgClip).pixel x y) i ≤ 255) :=
  ⟨by decide, fix_antarctica_in_range imgClip (by decide)⟩

/-! ## The resolution enhancer -/

/-- C7: under the documented contracts of the resampling filter (output has
exactly the requested size) and the unsharp-mask filter (size preserving),
`enhance_map_resolution` returns an image of size `(W*k, H*k)`; for `k = 1`
the size is unchanged and the pipeline is still resample-then-sharpen. -/
theorem enhance_map_resolution_dims (resize : Img → Nat × Nat → Img)
    (unsharp : Img → Img)
    (hres : ∀ im wh, (resize im wh).width = wh.1 ∧ (resize im wh).height = wh.2)
    (hun : ∀ im, (unsharp im).width = im.width ∧ (unsharp im).height = im.height)
    (img : Img) (k : Nat) (_hk : 1 ≤ k) :
    (enhance_map_resolution resize unsharp img k).width = img.width * k ∧
    (enhance_map_resolution resize unsharp img k).height = img.height * k ∧
    (enhance_map_resolution resize unsharp img 1).width = img.width ∧
    (enhance_map_resolution resize unsharp img 1).height = img.height ∧
    enhance_map_resolution resize unsharp img 1 =
      unsharp (resize img (img.width * 1, img.height * 1)) := by
  have base : ∀ j, (enhance_map_resolution resize unsharp img j).width = img.width * j ∧
      (enhance_map_resolution resize unsharp img j).height = img.height * j := by
    intro j
    show ((unsharp (resize img (img.width * j, img.height * j))).width = _) ∧
      ((unsharp (resize img (img.width * j, img.height * j))).height = _)
    rw [(hun _).1, (hun _).2, (hres _ _).1, (hres _ _).2]
    exact ⟨rfl, rfl⟩
  exact ⟨(base k).1, (base k).2, (base 1).1.trans (Nat.mul_one _),
    (base 1).2.trans (Nat.mul_one _), rfl⟩

/-- C7 witness: a size-faithful resampler and a size-preserving sharpener
satisfy the contracts, and a 2×2 image scaled by 2 comes out 4×4. -/
theorem enhance_map_resolution_dims_witness :
    ((∀ im wh, (resampleModel im wh).width = wh.1 ∧
        (resampleModel im wh).height = wh.2) ∧
      (∀ im, (sharpenModel im).width = im.width ∧
        (sharpenModel im).height = im.height) ∧ 1 ≤ 2) ∧
    ((enhance_map_resolution resampleModel sharpenModel imgFour 2).width =
        imgFour.width * 2 ∧
      (enhance_map_resolution resampleModel sharpenModel imgFour 2).height =
        imgFour.height * 2 ∧
      (enhance_map_resolution resampleModel sharpenModel imgFour 1).width =
        imgFour.width ∧
      (enhance_map_resolution resampleModel sharpenModel imgFour 1).height =
        imgFour.height ∧
      enhance_map_resolution resampleModel sharpenModel imgFour 1 =
        sharpenModel (resampleModel imgFour (imgFour.width * 1, imgFour.height * 1))) :=
  ⟨⟨fun _ _ => ⟨rfl, rfl⟩, fun _ => ⟨rfl, rfl⟩, by decide⟩,
    enhance_map_resolution_dims resampleModel sharpenModel
      (fun _ _ => ⟨rfl, rfl⟩) (fun _ => ⟨rfl, rfl⟩) imgFour 2 (by decide)⟩

/-! ## The batch driver -/

theorem foldl_append_filter {α β : Type} (l : List α) (c : α → Bool)
    (out : α → β) (acc : List β) :
    l.foldl (fun acc x => if c x then acc ++ [out x] else acc) acc =
      acc ++ (l.filter c).map out := by
  induction l generalizing acc with
  | nil => rw [List.foldl_nil, List.filter_nil, List.map_nil, List.append_nil]
  | cons a l ih =>
    rw [List.foldl_cons]
    by_cases h : c a
    · rw [if_pos h, ih, List.filter_cons_of_pos h, List.map_cons,
        List.append_assoc, List.singleton_append]
    · rw [if_neg h, ih, List.filter_cons_of_neg (by simpa using h)]

/-- C8: when the expected tile file of grid cell `(r0, c0)` is absent,
`batch_enhance_tiles` still returns, skipping the missing cell, and its
result is exactly the enhanced-tile output path of every grid cell whose
tile file exists, in row-major order. -/
theorem batch_enhance_tiles_skips (resize : Img → Nat × Nat → Img)
    (unsharp : Img → Img) (fs : Fs) (base_path output_dir pref : String)
    (rows cols k r0 c0 : Nat) (_hr0 : r0 < rows) (_hc0 : c0 < cols)
    (hmissing : fs (path_join base_path (tile_name pref r0 c0)) = none) :
    batch_enhance_tiles resize unsharp fs base_path output_dir pref rows cols k =
      ((pairList rows cols).filter
        (fun rc => (fs (path_join base_path (tile_name pref rc.1 rc.2))).isSome)).map
        (fun rc => path_join output_dir (enhanced_tile_name pref rc.1 rc.2)) ∧
    (r0, c0) ∉ (pairList rows cols).filter
        (fun rc => (fs (path_join base_path (tile_name pref rc.1 rc.2))).isSome) := by
  constructor
  · unfold batch_enhance_tiles
    have hstep : ∀ (acc : List String) (rc : Nat × Nat),
        (let tile_path := path_join base_path (tile_name pref rc.1 rc.2)
         if (fs tile_path).isSome then
          match enhance_from_fs resize unsharp fs tile_path k with
          | some _ =>
            acc ++ [path_join output_dir (enhanced_tile_name pref rc.1 rc.2)]
          | none => acc
         else acc) =
        if (fs (path_join base_path (tile_name pref rc.1 rc.2))).isSome then
          acc ++ [path_join output_dir (enhanced_tile_name pref rc.1 rc.2)]
        else acc := by
      intro acc rc
      by_cases h : (fs (path_join base_path (tile_name pref rc.1 rc.2))).isSome
      · rw [if_pos h, if_pos h]
        obtain ⟨im, him⟩ := Option.isSome_iff_exists.mp h
        unfold enhance_from_fs
        rw [him]
      · rw [if_neg h, if_neg h]
    rw [foldl_congr_mem _ _ _ _ (fun rc _ acc => hstep acc rc)]
    exact foldl_append_filter _ _ _ []
  · intro hmem
    have h2 := (List.mem_filter.mp hmem).2
    rw [hmissing] at h2
    exact Bool.noConfusion h2

/-- C8 witness: a 1×1 grid whose single tile file is absent — the batch
returns (the empty filter image of the grid) and the missing cell is
skipped. -/
theorem batch_enhance_tiles_skips_witness :
    ((0 : Nat) < 1 ∧ (0 : Nat) < 1 ∧
      fsEmpty (path_join "tiles" (tile_name "map" 0 0)) = none) ∧
    (batch_enhance_tiles resampleModel sharpenModel fsEmpty "tiles" "outdir"
        "map" 1 1 2 =
      ((pairList 1 1).filter
        (fun rc => (fsEmpty (path_join "tiles" (tile_name "map" rc.1 rc.2))).isSome)).map
        (fun rc => path_join "outdir" (enhanced_tile_name "map" rc.1 rc.2)) ∧
      (0, 0) ∉ (pairList 1 1).filter
        (fun rc => (fsEmpty (path_join "tiles" (tile_name "map" rc.1 rc.2))).isSome)) :=
  ⟨⟨by decide, by decide, rfl⟩,
    batch_enhance_tiles_skips resampleModel sharpenModel fsEmpty "tiles"
      "outdir" "map" 1 1 2 0 0 (by decide) (by decide) rfl⟩

/-- C9: when the source image is missing or cannot be decoded,
`split_image` returns the empty list instead of raising, and the
filesystem is untouched — in particular nothing that was on disk before the
call (tiles from an earlier run included) is cleaned up. -/
theorem split_image_missing (fs : Fs) (image_path : String) (rows cols : Nat)
    (h : fs image_path = none) :
    (split_image fs image_path rows cols).1 = [] ∧
    ∀ p, (split_image fs image_path rows cols).2 p = fs p := by
  unfold split_image
  rw [h]
  exact ⟨rfl, fun _ => rfl⟩

/-- C9 witness: splitting a path that resolves to no image on the empty
filesystem yields no tile paths and writes nothing. -/
theorem split_image_missing_witness :
    fsEmpty "map.png" = none ∧
    ((split_image fsEmpty "map.png" 2 2).1 = [] ∧
      ∀ p, (split_image fsEmpty "map.png" 2 2).2 p = fsEmpty p) :=
  ⟨rfl, split_image_missing fsEmpty "map.png" 2 2 rfl⟩

/-! ## The color corrector: mean matching -/

theorem antarctica_start_row_le (h : Nat) : antarctica_start_row h ≤ h := by
  unfold antarctica_start_row
  calc h * 85 / 100 ≤ h * 100 / 100 :=
        Nat.div_le_div_right (Nat.mul_le_mul_left h (by norm_num))
    _ = h := Nat.mul_div_cancel h (by norm_num)

theorem antarctica_start_row_lt (h : Nat) (hh : 1 ≤ h) :
    antarctica_start_row h < h := by
  unfold antarctica_start_row
  apply (Nat.div_lt_iff_lt_mul (by norm_num)).mpr
  exact mul_lt_mul_of_pos_left (by norm_num) hh

theorem regionVals_length (img : Img) (i x0 x1 y0 y1 : Nat) :
    (regionVals img i x0 x1 y0 y1).length = (y1 - y0) * (x1 - x0) := by
  unfold regionVals
  rw [List.length_flatMap]
  have hrepl : List.map (List.length ∘ fun dy => (List.range (x1 - x0)).map
      (fun dx => chan (img.pixel (x0 + dx) (y0 + dy)) i)) (List.range (y1 - y0)) =
      List.replicate (y1 - y0) (x1 - x0) := by
    apply List.eq_replicate_iff.mpr
    constructor
    · rw [List.length_map, List.length_range]
    · intro b hb
      obtain ⟨dy, _, rfl⟩ := List.mem_map.mp hb
      simp [Function.comp]
  rw [hrepl, List.sum_replicate, smul_eq_mul]

theorem regionVals_mem_forward {img : Img} {i x0 x1 y0 y1 v : Nat}
    (hv : v ∈ regionVals img i x0 x1 y0 y1) :
    ∃ dx dy, dx < x1 - x0 ∧ dy < y1 - y0 ∧
      v = chan (img.pixel (x0 + dx) (y0 + dy)) i := by
  unfold regionVals at hv
  rw [List.mem_flatMap] at hv
  obtain ⟨dy, hdy, hv⟩ := hv
  rw [List.mem_map] at hv
  obtain ⟨dx, hdx, rfl⟩ := hv
  exact ⟨dx, dy, List.mem_range.mp hdx, List.mem_range.mp hdy, rfl⟩

theorem flatMap_congr_mem {α β : Type} (l : List α) (f g : α → List β)
    (h : ∀ a ∈ l, f a = g a) : l.flatMap f = l.flatMap g := by
  induction l with
  | nil => rfl
  | cons a l ih =>
    rw [List.flatMap_cons, List.flatMap_cons, h a (List.mem_cons_self a l),
      ih fun x hx => h x (List.mem_cons_of_mem a hx)]

theorem regionVals_fix (img : Img) (i : Nat) (hi : i < 3) :
    regionVals (fix_antarctica_color_mismatch img) i (img.width / 2) img.width
        (antarctica_start_row img.height) img.height =
      (regionVals img i (img.width / 2) img.width
        (antarctica_start_row img.height) img.height).map
        (fun v : Nat => clip_to_byte ((v : ℚ) * color_scale img i)) := by
  unfold regionVals
  rw [List.map_flatMap]
  apply flatMap_congr_mem
  intro dy hdy
  rw [List.map_map]
  apply List.map_congr_left
  intro dx hdx
  rw [List.mem_range] at hdy hdx
  have hale : antarctica_start_row img.height ≤ img.height :=
    antarctica_start_row_le img.height
  have hwle : img.width / 2 ≤ img.width := Nat.div_le_self img.width 2
  have hcond : antarctica_start_row img.height ≤ antarctica_start_row img.height + dy ∧
      antarctica_start_row img.height + dy < img.height ∧
      img.width / 2 ≤ img.width / 2 + dx ∧ img.width / 2 + dx < img.width := by
    refine ⟨Nat.le_add_right _ _, by omega, Nat.le_add_right _ _, by omega⟩
  show chan ((fix_antarctica_color_mismatch img).pixel (img.width / 2 + dx)
      (antarctica_start_row img.height + dy)) i = _
  simp only [fix_antarctica_color_mismatch]
  rw [if_pos hcond]
  match i, hi with
  | 0, _ => rfl
  | 1, _ => rfl
  | 2, _ => rfl

theorem clip_to_byte_eq_floor (q : ℚ) (h0 : 0 ≤ q) (h255 : q ≤ 255) :
    clip_to_byte q = ⌊q⌋₊ := by
  unfold clip_to_byte
  rw [max_eq_left h0, min_eq_left h255]

theorem sum_map_clip_le (l : List Nat) (r : ℚ) (hr : 0 ≤ r)
    (hcl : ∀ v ∈ l, (v : ℚ) * r ≤ 255) :
    ((l.map (fun v : Nat => clip_to_byte ((v : ℚ) * r))).sum : ℚ) ≤ r * (l.sum : ℚ) := by
  induction l with
  | nil => simp
  | cons v l ih =>
    rw [List.map_cons, List.sum_cons, List.sum_cons, Nat.cast_add, Nat.cast_add]
    have h0 : (0 : ℚ) ≤ (v : ℚ) * r := mul_nonneg (Nat.cast_nonneg v) hr
    have h1 : (clip_to_byte ((v : ℚ) * r) : ℚ) ≤ (v : ℚ) * r := by
      rw [clip_to_byte_eq_floor _ h0 (hcl v (List.mem_cons_self v l))]
      exact Nat.floor_le h0
    have h2 := ih fun x hx => hcl x (List.mem_cons_of_mem v hx)
    have h3 : r * ((v : ℚ) + (l.sum : ℚ)) = (v : ℚ) * r + r * (l.sum : ℚ) := by ring
    rw [h3]
    exact add_le_add h1 h2

theorem sum_map_clip_ge (l : List Nat) (r : ℚ) (hr : 0 ≤ r)
    (hcl : ∀ v ∈ l, (v : ℚ) * r ≤ 255) :
    r * (l.sum : ℚ) - (l.length : ℚ) ≤
      ((l.map (fun v : Nat => clip_to_byte ((v : ℚ) * r))).sum : ℚ) := by
  induction l with
  | nil => simp
  | cons v l ih =>
    rw [List.map_cons, List.sum_cons, List.sum_cons, List.length_cons,
      Nat.cast_add, Nat.cast_add, Nat.cast_add, Nat.cast_one]
    have h0 : (0 : ℚ) ≤ (v : ℚ) * r := mul_nonneg (Nat.cast_nonneg v) hr
    have h1 : (v : ℚ) * r - 1 ≤ (clip_to_byte ((v : ℚ) * r) : ℚ) := by
      rw [clip_to_byte_eq_floor _ h0 (hcl v (List.mem_cons_self v l))]
      exact le_of_lt (Nat.sub_one_lt_floor _)
    have h2 := ih fun x hx => hcl x (List.mem_cons_of_mem v hx)
    have h3 : r * ((v : ℚ) + (l.sum : ℚ)) - ((l.length : ℚ) + 1) =
        ((v : ℚ) * r - 1) + (r * (l.sum : ℚ) - (l.length : ℚ)) := by ring
    rw [h3]
    exact add_le_add h1 h2

/-- C3 (amended): for an RGB image with a nonempty band (`width ≥ 2`,
`height ≥ 1`) whose right-region mean on channel `i` is nonzero, and on
which the correction clips nothing (every right-region channel value times
the channel ratio stays at most 255), the corrected right-region mean never
exceeds the left mean and falls short of it by at most
`1 + leftMean*ε/(rightMean+ε)` — the claimed ±1, widened by the bias the
`ε = 1e-6` guard introduces (below `0.000255` whenever the right mean is at
least 1).  The original claim fails without the no-clipping hypothesis:
clipping at 255 can leave the corrected mean tens of units away. -/
theorem fix_antarctica_mean (img : Img) (i : Nat) (hi : i < 3)
    (hw : 2 ≤ img.width) (hh : 1 ≤ img.height)
    (hR : 0 < right_avg_color img i)
    (hnc : ∀ x, x < img.width → ∀ y, y < img.height →
      img.width / 2 ≤ x → antarctica_start_row img.height ≤ y →
      (chan (img.pixel x y) i : ℚ) * color_scale img i ≤ 255) :
    right_avg_color (fix_antarctica_color_mismatch img) i ≤
      left_avg_color img i ∧
    left_avg_color img i -
        right_avg_color (fix_antarctica_color_mismatch img) i ≤
      1 + left_avg_color img i * epsGuard /
        (right_avg_color img i + epsGuard) := by
  have heps : (0 : ℚ) < epsGuard := by norm_num [epsGuard]
  have hL0 : 0 ≤ left_avg_color img i := by
    unfold left_avg_color regionMean
    exact div_nonneg (Nat.cast_nonneg _) (Nat.cast_nonneg _)
  have hden : (0 : ℚ) < right_avg_color img i + epsGuard := by linarith
  have hden' : right_avg_color img i + epsGuard ≠ 0 := ne_of_gt hden
  have hrho0 : 0 ≤ color_scale img i := by
    unfold color_scale
    exact div_nonneg hL0 (le_of_lt hden)
  have hNlen : (regionVals img i (img.width / 2) img.width
      (antarctica_start_row img.height) img.height).length =
      (img.height - antarctica_start_row img.height) *
        (img.width - img.width / 2) := regionVals_length img i _ _ _ _
  have hNpos : 0 < (regionVals img i (img.width / 2) img.width
      (antarctica_start_row img.height) img.height).length := by
    rw [hNlen]
    apply Nat.mul_pos
    · have := antarctica_start_row_lt img.height hh
      omega
    · have : img.width / 2 < img.width := Nat.div_lt_self (by omega) (by norm_num)
      omega
  have hn0 : (0 : ℚ) < ((regionVals img i (img.width / 2) img.width
      (antarctica_start_row img.height) img.height).length : ℚ) := by
    exact_mod_cast hNpos
  have hclR : ∀ v ∈ regionVals img i (img.width / 2) img.width
      (antarctica_start_row img.height) img.height,
      (v : ℚ) * color_scale img i ≤ 255 := by
    intro v hv
    obtain ⟨dx, dy, hdx, hdy, rfl⟩ := regionVals_mem_forward hv
    have hd2 := Nat.div_le_self img.width 2
    have hale := antarctica_start_row_le img.height
    exact hnc _ (by omega) _ (by omega) (Nat.le_add_right _ _) (Nat.le_add_right _ _)
  have hcorr : right_avg_color (fix_antarctica_color_mismatch img) i =
      (((regionVals img i (img.width / 2) img.width
          (antarctica_start_row img.height) img.height).map
        (fun v : Nat => clip_to_byte ((v : ℚ) * color_scale img i))).sum : ℚ) /
      ((regionVals img i (img.width / 2) img.width
          (antarctica_start_row img.height) img.height).length : ℚ) := by
    unfold right_avg_color regionMean
    rw [show (fix_antarctica_color_mismatch img).width = img.width from rfl,
      show (fix_antarctica_color_mismatch img).height = img.height from rfl,
      regionVals_fix img i hi, List.length_map]
  have hRmS : right_avg_color img i =
      ((regionVals img i (img.width / 2) img.width
          (antarctica_start_row img.height) img.height).sum : ℚ) /
      ((regionVals img i (img.width / 2) img.width
          (antarctica_start_row img.height) img.height).length : ℚ) := rfl
  have hkey1 := sum_map_clip_le _ _ hrho0 hclR
  have hkey2 := sum_map_clip_ge _ _ hrho0 hclR
  have h4 : right_avg_color (fix_antarctica_color_mismatch img) i ≤
      color_scale img i * right_avg_color img i := by
    rw [hcorr, hRmS, ← mul_div_assoc]
    exact div_le_div_of_nonneg_right hkey1 hn0.le
  have h5 : color_scale img i * right_avg_color img i - 1 ≤
      right_avg_color (fix_antarctica_color_mismatch img) i := by
    rw [hcorr, hRmS, ← mul_div_assoc]
    have hstep := div_le_div_of_nonneg_right hkey2 hn0.le
    rw [sub_div, div_self (ne_of_gt hn0)] at hstep
    exact hstep
  have hkey : color_scale img i * right_avg_color img i =
      left_avg_color img i - left_avg_color img i * epsGuard /
        (right_avg_color img i + epsGuard) := by
    unfold color_scale
    field_simp
    ring
  have hdelta0 : 0 ≤ left_avg_color img i * epsGuard /
      (right_avg_color img i + epsGuard) :=
    div_nonneg (mul_nonneg hL0 (le_of_lt heps)) (le_of_lt hden)
  constructor
  · linarith [h4, hkey]
  · linarith [h5, hkey]


theorem left_avg_imgFlat : left_avg_color imgFlat 0 = 100 := by
  unfold left_avg_color regionMean
  rw [show imgFlat.width = 4 from rfl, show imgFlat.height = 2 from rfl]
  norm_num [antarctica_start_row]
  rw [show regionVals imgFlat 0 0 2 1 2 = [100, 100] from rfl]
  norm_num

theorem right_avg_imgFlat : right_avg_color imgFlat 0 = 100 := by
  unfold right_avg_color regionMean
  rw [show imgFlat.width = 4 from rfl, show imgFlat.height = 2 from rfl]
  norm_num [antarctica_start_row]
  rw [show regionVals imgFlat 0 2 4 1 2 = [100, 100] from rfl]
  norm_num

theorem color_scale_imgFlat : color_scale imgFlat 0 = 100000000 / 100000001 := by
  unfold color_scale
  rw [left_avg_imgFlat, right_avg_imgFlat]
  norm_num [epsGuard]

theorem imgFlat_noclip : ∀ x, x < imgFlat.width → ∀ y, y < imgFlat.height →
    imgFlat.width / 2 ≤ x → antarctica_start_row imgFlat.height ≤ y →
    (chan (imgFlat.pixel x y) 0 : ℚ) * color_scale imgFlat 0 ≤ 255 := by
  intro x hx y hy hx2 hy1
  rw [show imgFlat.height = 2 from rfl] at hy
  rw [show antarctica_start_row imgFlat.height = 1 from rfl] at hy1
  have hy' : y = 1 := by omega
  subst hy'
  rw [show chan (imgFlat.pixel x 1) 0 = 100 from rfl, color_scale_imgFlat]
  norm_num


theorem left_avg_imgClip : left_avg_color imgClip 0 = 200 := by
  unfold left_avg_color regionMean
  rw [show imgClip.width = 4 from rfl, show imgClip.height = 2 from rfl]
  norm_num [antarctica_start_row]
  rw [show regionVals imgClip 0 0 2 1 2 = [200, 200] from rfl]
  norm_num

theorem right_avg_imgClip0 : right_avg_color imgClip 0 = 125 := by
  unfold right_avg_color regionMean
  rw [show imgClip.width = 4 from rfl, show imgClip.height = 2 from rfl]
  norm_num [antarctica_start_row]
  rw [show regionVals imgClip 0 2 4 1 2 = [10, 240] from rfl]
  norm_num

theorem right_avg_imgClip1 : right_avg_color imgClip 1 = 125 := by
  unfold right_avg_color regionMean
  rw [show imgClip.width = 4 from rfl, show imgClip.height = 2 from rfl]
  norm_num [antarctica_start_row]
  rw [show regionVals imgClip 1 2 4 1 2 = [10, 240] from rfl]
  norm_num

theorem right_avg_imgClip2 : right_avg_color imgClip 2 = 125 := by
  unfold right_avg_color regionMean
  rw [show imgClip.width = 4 from rfl, show imgClip.height = 2 from rfl]
  norm_num [antarctica_start_row]
  rw [show regionVals imgClip 2 2 4 1 2 = [10, 240] from rfl]
  norm_num

theorem color_scale_imgClip : color_scale imgClip 0 = 200000000 / 125000001 := by
  unfold color_scale
  rw [left_avg_imgClip, right_avg_imgClip0]
  norm_num [epsGuard]

theorem corr_right_avg_imgClip :
    right_avg_color (fix_antarctica_color_mismatch imgClip) 0 = 135 := by
  unfold right_avg_color regionMean
  rw [show (fix_antarctica_color_mismatch imgClip).width = imgClip.width from rfl,
    show (fix_antarctica_color_mismatch imgClip).height = imgClip.height from rfl,
    regionVals_fix imgClip 0 (by norm_num)]
  rw [show regionVals imgClip 0 (imgClip.width / 2) imgClip.width
      (antarctica_start_row imgClip.height) imgClip.height = [10, 240] from rfl]
  simp only [List.map_cons, List.map_nil, color_scale_imgClip]
  have h1 : clip_to_byte (((10 : ℕ) : ℚ) * (200000000 / 125000001)) = 15 := by
    rw [clip_to_byte, Nat.floor_eq_iff (by norm_num [min_def, max_def])]
    norm_num [min_def, max_def]
  have h2 : clip_to_byte (((240 : ℕ) : ℚ) * (200000000 / 125000001)) = 255 := by
    rw [clip_to_byte, Nat.floor_eq_iff (by norm_num [min_def, max_def])]
    norm_num [min_def, max_def]
  rw [h1, h2]
  norm_num


/-- C3 witness: a flat image (bottom band all 100) — ratio just below 1,
nothing clips, and the corrected right mean lands within the bound of the
left mean. -/
theorem fix_antarctica_mean_witness :
    ((0 : Nat) < 3 ∧ 2 ≤ imgFlat.width ∧ 1 ≤ imgFlat.height ∧
      0 < right_avg_color imgFlat 0 ∧
      (∀ x, x < imgFlat.width → ∀ y, y < imgFlat.height →
        imgFlat.width / 2 ≤ x → antarctica_start_row imgFlat.height ≤ y →
        (chan (imgFlat.pixel x y) 0 : ℚ) * color_scale imgFlat 0 ≤ 255)) ∧
    (right_avg_color (fix_antarctica_color_mismatch imgFlat) 0 ≤
        left_avg_color imgFlat 0 ∧
      left_avg_color imgFlat 0 -
          right_avg_color (fix_antarctica_color_mismatch imgFlat) 0 ≤
        1 + left_avg_color imgFlat 0 * epsGuard /
          (right_avg_color imgFlat 0 + epsGuard)) := by
  have hR : 0 < right_avg_color imgFlat 0 := by
    rw [right_avg_imgFlat]
    norm_num
  exact ⟨⟨by norm_num, by decide, by decide, hR, imgFlat_noclip⟩,
    fix_antarctica_mean imgFlat 0 (by norm_num) (by decide) (by decide) hR
      imgFlat_noclip⟩

/-- C3 counterexample: `imgClip` has nonzero right-region means on every
channel, yet after correction the channel-0 right mean is 135 while the
left mean is 200 — off by 65, far beyond the claimed ±1, because the
`240 ↦ 384` rescale clips to 255. -/
theorem fix_antarctica_mean_cex :
    0 < right_avg_color imgClip 0 ∧ 0 < right_avg_color imgClip 1 ∧
    0 < right_avg_color imgClip 2 ∧
    ¬ |left_avg_color imgClip 0 -
        right_avg_color (fix_antarctica_color_mismatch imgClip) 0| ≤ 1 := by
  refine ⟨?_, ?_, ?_, ?_⟩
  · rw [right_avg_imgClip0]
    norm_num
  · rw [right_avg_imgClip1]
    norm_num
  · rw [right_avg_imgClip2]
    norm_num
  · rw [left_avg_imgClip, corr_right_avg_imgClip]
    norm_num

end AntiGrav
